import Mathlib

/-!
Verification of the DES block-cipher engine of the EncryptionSystem repository.

The byte-stream layer (`encrypt_block`, `decrypt_block`, `encrypt`, `decrypt`,
`_pad_data`, `_unpad_data`) is embedded from `src/ciphers/des_cipher.py`.
That file delegates the bit-level primitives (permutation tables, `permute`,
`generate_subkeys`, `f_function`) to a `DESUtils` class whose source file is
not part of the repository snapshot; those primitives are modelled from the
specification (sections 4.1-4.3), which fixes them to the standard DES tables
and algorithms.  Machine integers are modelled as `Nat` (Python's unbounded
integers), byte strings as `List Nat` with every element below 256.
-/

namespace DES

/-- Modelled from the spec: the standard DES initial permutation table IP
(64 one-indexed bit positions, MSB first); `DESUtils.IP` is not in the
repository snapshot. -/
def IP : List Nat :=
  [58, 50, 42, 34, 26, 18, 10, 2,
   60, 52, 44, 36, 28, 20, 12, 4,
   62, 54, 46, 38, 30, 22, 14, 6,
   64, 56, 48, 40, 32, 24, 16, 8,
   57, 49, 41, 33, 25, 17, 9, 1,
   59, 51, 43, 35, 27, 19, 11, 3,
   61, 53, 45, 37, 29, 21, 13, 5,
   63, 55, 47, 39, 31, 23, 15, 7]

/-- Modelled from the spec: the standard DES final (inverse initial)
permutation table IP⁻¹; `DESUtils.IP_INV` is not in the repository
snapshot. -/
def IP_INV : List Nat :=
  [40, 8, 48, 16, 56, 24, 64, 32,
   39, 7, 47, 15, 55, 23, 63, 31,
   38, 6, 46, 14, 54, 22, 62, 30,
   37, 5, 45, 13, 53, 21, 61, 29,
   36, 4, 44, 12, 52, 20, 60, 28,
   35, 3, 43, 11, 51, 19, 59, 27,
   34, 2, 42, 10, 50, 18, 58, 26,
   33, 1, 41, 9, 49, 17, 57, 25]

/-- Modelled from the spec: the standard DES expansion table E (32 -> 48
bits); the `DESUtils` source is not in the repository snapshot. -/
def E : List Nat :=
  [32, 1, 2, 3, 4, 5,
   4, 5, 6, 7, 8, 9,
   8, 9, 10, 11, 12, 13,
   12, 13, 14, 15, 16, 17,
   16, 17, 18, 19, 20, 21,
   20, 21, 22, 23, 24, 25,
   24, 25, 26, 27, 28, 29,
   28, 29, 30, 31, 32, 1]

/-- Modelled from the spec: the standard DES P permutation (32 bits); the
`DESUtils` source is not in the repository snapshot. -/
def P : List Nat :=
  [16, 7, 20, 21,
   29, 12, 28, 17,
   1, 15, 23, 26,
   5, 18, 31, 10,
   2, 8, 24, 14,
   32, 27, 3, 9,
   19, 13, 30, 6,
   22, 11, 4, 25]

/-- Modelled from the spec: the standard DES key-schedule selection table
PC-1 (64 -> 56 bits); the `DESUtils` source is not in the repository
snapshot. -/
def PC1 : List Nat :=
  [57, 49, 41, 33, 25, 17, 9,
   1, 58, 50, 42, 34, 26, 18,
   10, 2, 59, 51, 43, 35, 27,
   19, 11, 3, 60, 52, 44, 36,
   63, 55, 47, 39, 31, 23, 15,
   7, 62, 54, 46, 38, 30, 22,
   14, 6, 61, 53, 45, 37, 29,
   21, 13, 5, 28, 20, 12, 4]

/-- Modelled from the spec: the standard DES key-schedule selection table
PC-2 (56 -> 48 bits); the `DESUtils` source is not in the repository
snapshot. -/
def PC2 : List Nat :=
  [14, 17, 11, 24, 1, 5,
   3, 28, 15, 6, 21, 10,
   23, 19, 12, 4, 26, 8,
   16, 7, 27, 20, 13, 2,
   41, 52, 31, 37, 47, 55,
   30, 40, 51, 45, 33, 48,
   44, 49, 39, 56, 34, 53,
   46, 42, 50, 36, 29, 32]

/-- Modelled from the spec: the standard DES per-round left-rotation
schedule (1 bit for rounds 1, 2, 9, 16, otherwise 2); the `DESUtils` source
is not in the repository snapshot. -/
def SHIFTS : List Nat := [1, 1, 2, 2, 2, 2, 2, 2, 1, 2, 2, 2, 2, 2, 2, 1]

/-- Modelled from the spec: the eight standard DES S-boxes, each a 4x16
table of 4-bit values; the `DESUtils` source is not in the repository
snapshot. -/
def SBOXES : List (List (List Nat)) :=
  [[[14, 4, 13, 1, 2, 15, 11, 8, 3, 10, 6, 12, 5, 9, 0, 7],
    [0, 15, 7, 4, 14, 2, 13, 1, 10, 6, 12, 11, 9, 5, 3, 8],
    [4, 1, 14, 8, 13, 6, 2, 11, 15, 12, 9, 7, 3, 10, 5, 0],
    [15, 12, 8, 2, 4, 9, 1, 7, 5, 11, 3, 14, 10, 0, 6, 13]],
   [[15, 1, 8, 14, 6, 11, 3, 4, 9, 7, 2, 13, 12, 0, 5, 10],
    [3, 13, 4, 7, 15, 2, 8, 14, 12, 0, 1, 10, 6, 9, 11, 5],
    [0, 14, 7, 11, 10, 4, 13, 1, 5, 8, 12, 6, 9, 3, 2, 15],
    [13, 8, 10, 1, 3, 15, 4, 2, 11, 6, 7, 12, 0, 5, 14, 9]],
   [[10, 0, 9, 14, 6, 3, 15, 5, 1, 13, 12, 7, 11, 4, 2, 8],
    [13, 7, 0, 9, 3, 4, 6, 10, 2, 8, 5, 14, 12, 11, 15, 1],
    [13, 6, 4, 9, 8, 15, 3, 0, 11, 1, 2, 12, 5, 10, 14, 7],
    [1, 10, 13, 0, 6, 9, 8, 7, 4, 15, 14, 3, 11, 5, 2, 12]],
   [[7, 13, 14, 3, 0, 6, 9, 10, 1, 2, 8, 5, 11, 12, 4, 15],
    [13, 8, 11, 5, 6, 15, 0, 3, 4, 7, 2, 12, 1, 10, 14, 9],
    [10, 6, 9, 0, 12, 11, 7, 13, 15, 1, 3, 14, 5, 2, 8, 4],
    [3, 15, 0, 6, 10, 1, 13, 8, 9, 4, 5, 11, 12, 7, 2, 14]],
   [[2, 12, 4, 1, 7, 10, 11, 6, 8, 5, 3, 15, 13, 0, 14, 9],
    [14, 11, 2, 12, 4, 7, 13, 1, 5, 0, 15, 10, 3, 9, 8, 6],
    [4, 2, 1, 11, 10, 13, 7, 8, 15, 9, 12, 5, 6, 3, 0, 14],
    [11, 8, 12, 7, 1, 14, 2, 13, 6, 15, 0, 9, 10, 4, 5, 3]],
   [[12, 1, 10, 15, 9, 2, 6, 8, 0, 13, 3, 4, 14, 7, 5, 11],
    [10, 15, 4, 2, 7, 12, 9, 5, 6, 1, 13, 14, 0, 11, 3, 8],
    [9, 14, 15, 5, 2, 8, 12, 3, 7, 0, 4, 10, 1, 13, 11, 6],
    [4, 3, 2, 12, 9, 5, 15, 10, 11, 14, 1, 7, 6, 0, 8, 13]],
   [[4, 11, 2, 14, 15, 0, 8, 13, 3, 12, 9, 7, 5, 10, 6, 1],
    [13, 0, 11, 7, 4, 9, 1, 10, 14, 3, 5, 12, 2, 15, 8, 6],
    [1, 4, 11, 13, 12, 3, 7, 14, 10, 15, 6, 8, 0, 5, 9, 2],
    [6, 11, 13, 8, 1, 4, 10, 7, 9, 5, 0, 15, 14, 2, 3, 12]],
   [[13, 2, 8, 4, 6, 15, 11, 1, 10, 9, 3, 14, 5, 0, 12, 7],
    [1, 15, 13, 8, 10, 3, 7, 4, 12, 5, 6, 11, 0, 14, 9, 2],
    [7, 11, 4, 1, 9, 12, 14, 2, 0, 6, 10, 13, 15, 3, 5, 8],
    [2, 1, 14, 7, 4, 10, 8, 13, 15, 12, 9, 0, 3, 5, 6, 11]]]

/-- Bit `p` of a `w`-bit value, one-indexed from the most-significant end
(the DES table convention). -/
def getBit (w v p : Nat) : Nat := v / 2 ^ (w - p) % 2

/-- Interpret a list of bits (MSB first) as a natural number. -/
def bitsToNat (bs : List Nat) : Nat := bs.foldl (fun a b => 2 * a + b) 0

/-- Modelled from the spec: `DESUtils.permute` (section 4.2), whose source
is not in the repository snapshot.  For each output bit position (MSB
first) read the input bit at the table's one-indexed position and emit it;
the output width is the table length. -/
def permute (value : Nat) (table : List Nat) (width : Nat) : Nat :=
  bitsToNat (table.map (fun pos => getBit width value pos))

/-- Left rotation of a 28-bit half, as used by the key schedule. -/
def rotateLeft28 (x n : Nat) : Nat :=
  ((x <<< n) ||| (x >>> (28 - n))) % 2 ^ 28

/-- Helper for `generate_subkeys`: run the remaining rotation schedule on
the current 28-bit halves, emitting one PC-2-compressed subkey per round. -/
def subkeysAux : List Nat → Nat → Nat → List Nat
  | [], _, _ => []
  | s :: rest, c, d =>
    let c' := rotateLeft28 c s
    let d' := rotateLeft28 d s
    permute ((c' <<< 28) ||| d') PC2 56 :: subkeysAux rest c' d'

/-- Modelled from the spec: `DESUtils.generate_subkeys` (section 4.1),
whose source is not in the repository snapshot.  PC-1 compresses the
64-bit key to 56 bits, the halves are rotated per the schedule, and PC-2
selects 48 bits per round. -/
def generate_subkeys (key : Nat) : List Nat :=
  let permuted := permute key PC1 64
  subkeysAux SHIFTS (permuted >>> 28) (permuted % 2 ^ 28)

/-- S-box substitution of one six-bit group: outer two bits select the row,
inner four bits the column. -/
def sboxLookup (i group : Nat) : Nat :=
  let row := group / 32 * 2 + group % 2
  let col := group / 2 % 16
  ((SBOXES.getD i []).getD row []).getD col 0

/-- Modelled from the spec: `DESUtils.f_function` (section 4.3), whose
source is not in the repository snapshot.  Expand the right half to 48
bits, XOR with the subkey, substitute eight 6-bit groups through the
S-boxes (MSB group first), and apply the P permutation. -/
def f_function (right subkey : Nat) : Nat :=
  let expanded := permute right E 32
  let x := expanded ^^^ subkey
  let sboxOut := (List.range 8).foldl
    (fun acc i => acc * 16 + sboxLookup i (x >>> ((7 - i) * 6) % 64)) 0
  permute sboxOut P 32

/-- One Feistel round as written in the loop bodies of
`DESCipher.encrypt_block` and `DESCipher.decrypt_block`:
`(left, right) -> (right, left XOR f_function(right, subkey))`. -/
def feistelRound (lr : Nat × Nat) (subkey : Nat) : Nat × Nat :=
  (lr.2, lr.1 ^^^ f_function lr.2 subkey)

/-- The 16-round loop of `encrypt_block` / `decrypt_block`, folding
`feistelRound` over a subkey list. -/
def feistelRounds (subkeys : List Nat) (lr : Nat × Nat) : Nat × Nat :=
  subkeys.foldl feistelRound lr

/-- Embeds `DESCipher.encrypt_block` (src/ciphers/des_cipher.py lines
24-56): initial permutation, split, 16 Feistel rounds with the subkeys in
forward order, switched recombination, final permutation. -/
def encrypt_block (block key : Nat) : Nat :=
  let subkeys := generate_subkeys key
  let b := permute block IP 64
  let left := (b >>> 32) &&& 0xFFFFFFFF
  let right := b &&& 0xFFFFFFFF
  let lr := feistelRounds subkeys (left, right)
  permute ((lr.2 <<< 32) ||| lr.1) IP_INV 64

/-- Embeds `DESCipher.decrypt_block` (src/ciphers/des_cipher.py lines
58-90): identical to `encrypt_block` except the subkeys are consumed in
reversed order. -/
def decrypt_block (block key : Nat) : Nat :=
  let subkeys := generate_subkeys key
  let b := permute block IP 64
  let left := (b >>> 32) &&& 0xFFFFFFFF
  let right := b &&& 0xFFFFFFFF
  let lr := feistelRounds subkeys.reverse (left, right)
  permute ((lr.2 <<< 32) ||| lr.1) IP_INV 64

/-- Error kinds raised by the byte-stream layer.  `lengthInvalid` and
`paddingInvalid` are the two `ValueError`s of `DESCipher.decrypt` /
`DESCipher._unpad_data`; `decodeInvalid` stands for `UnicodeDecodeError`
from the final UTF-8 decode (outside the byte-level model and never
produced here); `indexOutOfRange` models Python's `IndexError`. -/
inductive DesError
  | lengthInvalid
  | paddingInvalid
  | decodeInvalid
  | indexOutOfRange
deriving DecidableEq

/-- Big-endian interpretation of a byte list, Python's
`int.from_bytes(bs, 'big')`. -/
def fromBytes (bs : List Nat) : Nat := bs.foldl (fun a b => 256 * a + b) 0

/-- Big-endian k-byte encoding, Python's `n.to_bytes(k, 'big')`.  Every
value the block transforms feed into it is below `2 ^ 64`, so the overflow
check Python performs never fires. -/
def toBytes : Nat → Nat → List Nat
  | 0, _ => []
  | k + 1, n => toBytes k (n / 256) ++ [n % 256]

/-- Consecutive 8-byte chunks of a byte list, mirroring the loops
`for i in range(0, len(data), 8)` slicing `data[i:i+8]` in
`DESCipher.encrypt` and `DESCipher.decrypt` (a trailing chunk shorter
than 8 is kept as is, exactly as the Python slice produces it). -/
def chunks8 : List Nat → List (List Nat)
  | [] => []
  | a :: b :: c :: d :: e :: f :: g :: h :: rest =>
    [a, b, c, d, e, f, g, h] :: chunks8 rest
  | l => [l]

/-- Embeds `DESCipher._pad_data` (src/ciphers/des_cipher.py lines
142-149): PKCS#7-style padding, `pad_length = 8 - len(data) % 8` bytes of
value `pad_length`. -/
def _pad_data (data : List Nat) : List Nat :=
  let pad_length := 8 - data.length % 8
  data ++ List.replicate pad_length pad_length

/-- Embeds `DESCipher._unpad_data` (src/ciphers/des_cipher.py lines
151-161).  Python's `data[-1]` on an empty sequence raises `IndexError`,
modelled as `indexOutOfRange`.  The check loop
`for i in range(1, pad_length + 1)` compares `data[-i]`, i.e.
`data[len(data) - i]`, against `pad_length`; in every call reachable from
`decrypt` the length is a positive multiple of 8, so with `pad_length ≤ 8`
the index never leaves the sequence.  The final slice
`data[:-pad_length]` is empty when `pad_length = 0` because the slice stop
`-0` is `0`. -/
def _unpad_data (data : List Nat) : Except DesError (List Nat) :=
  match data.getLast? with
  | none => .error .indexOutOfRange
  | some pad_length =>
    if 8 < pad_length then .error .paddingInvalid
    else if (List.range' 1 pad_length).all
        (fun i => data.getD (data.length - i) 0 == pad_length) then
      .ok (if pad_length = 0 then [] else data.take (data.length - pad_length))
    else .error .paddingInvalid

/-- Embeds `DESCipher.encrypt` (src/ciphers/des_cipher.py lines 92-114)
at the byte level: the plaintext argument is the UTF-8 byte encoding of
the input string (`plaintext.encode('utf-8')`). -/
def encrypt (plaintext : List Nat) (key : Nat) : List Nat :=
  let padded_data := _pad_data plaintext
  ((chunks8 padded_data).map (fun c => toBytes 8 (encrypt_block (fromBytes c) key))).flatten

/-- Embeds `DESCipher.decrypt` (src/ciphers/des_cipher.py lines 116-140)
at the byte level: the result is the unpadded byte sequence; the final
UTF-8 decode (which can raise `decodeInvalid`) is outside the byte-level
model. -/
def decrypt (ciphertext : List Nat) (key : Nat) : Except DesError (List Nat) :=
  if ciphertext.length % 8 ≠ 0 then .error .lengthInvalid
  else
    _unpad_data (((chunks8 ciphertext).map
      (fun c => toBytes 8 (decrypt_block (fromBytes c) key))).flatten)

/-- The common body of `encrypt_block` and `decrypt_block` with the subkey
list abstracted: the two source functions differ only in the traversal
order of the subkeys. -/
def blockTransform (subkeys : List Nat) (block : Nat) : Nat :=
  let b := permute block IP 64
  let left := (b >>> 32) &&& 0xFFFFFFFF
  let right := b &&& 0xFFFFFFFF
  let lr := feistelRounds subkeys (left, right)
  permute ((lr.2 <<< 32) ||| lr.1) IP_INV 64

/-! Bit-level lemmas about `bitsToNat`, `getBit` and `permute`. -/

theorem foldl_two_mul_add (bs : List Nat) (a : Nat) :
    bs.foldl (fun x y => 2 * x + y) a =
      a * 2 ^ bs.length + bs.foldl (fun x y => 2 * x + y) 0 := by
  induction bs generalizing a with
  | nil => simp
  | cons b bs ih =>
    simp only [List.foldl_cons, List.length_cons]
    rw [ih (2 * a + b), ih (2 * 0 + b)]
    ring

theorem bitsToNat_cons (b : Nat) (bs : List Nat) :
    bitsToNat (b :: bs) = b * 2 ^ bs.length + bitsToNat bs := by
  show (b :: bs).foldl (fun x y => 2 * x + y) 0 = _
  simp only [List.foldl_cons]
  rw [foldl_two_mul_add]
  unfold bitsToNat
  ring

theorem bitsToNat_lt (bs : List Nat) (h : ∀ b ∈ bs, b < 2) :
    bitsToNat bs < 2 ^ bs.length := by
  induction bs with
  | nil => simp [bitsToNat]
  | cons b bs ih =>
    rw [bitsToNat_cons]
    have hb : b < 2 := h b (by simp)
    have hbs := ih (fun x hx => h x (by simp [hx]))
    have hb1 : b * 2 ^ bs.length ≤ 1 * 2 ^ bs.length :=
      Nat.mul_le_mul_right _ (by omega)
    calc b * 2 ^ bs.length + bitsToNat bs
        < b * 2 ^ bs.length + 2 ^ bs.length := by omega
      _ ≤ 1 * 2 ^ bs.length + 2 ^ bs.length := by omega
      _ = 2 ^ (b :: bs).length := by simp [List.length_cons, pow_succ]; ring

theorem getBit_lt (w v p : Nat) : getBit w v p < 2 :=
  Nat.mod_lt _ (by norm_num)

theorem getBit_bitsToNat (bs : List Nat) (h2 : ∀ b ∈ bs, b < 2) (p : Nat)
    (hp1 : 1 ≤ p) (hp2 : p ≤ bs.length) :
    getBit bs.length (bitsToNat bs) p = bs.getD (p - 1) 0 := by
  induction bs generalizing p with
  | nil => simp at hp2; omega
  | cons b bs ih =>
    have hb : b < 2 := h2 b (by simp)
    have hbs : ∀ x ∈ bs, x < 2 := fun x hx => h2 x (by simp [hx])
    have hbits : bitsToNat bs < 2 ^ bs.length := bitsToNat_lt bs hbs
    rw [bitsToNat_cons]
    rcases Nat.lt_or_ge p 2 with h1 | h1
    · -- p = 1: the head bit
      have hp : p = 1 := by omega
      subst hp
      unfold getBit
      simp only [List.length_cons, Nat.add_sub_cancel]
      rw [mul_comm, Nat.mul_add_div (Nat.pos_pow_of_pos _ (by norm_num)),
        Nat.div_eq_of_lt hbits]
      simp [Nat.mod_eq_of_lt hb]
    · -- p ≥ 2: the bit lives in the tail
      obtain ⟨q, rfl⟩ : ∃ q, p = q + 2 := ⟨p - 2, by omega⟩
      have hq : q + 1 ≤ bs.length := by simpa [List.length_cons] using hp2
      have hih := ih hbs (q + 1) (by omega) hq
      unfold getBit at hih ⊢
      obtain ⟨e, he⟩ : ∃ e, bs.length = q + 1 + e := ⟨bs.length - q - 1, by omega⟩
      have h3 : (b :: bs).length - (q + 2) = e := by simp [List.length_cons]; omega
      have h4 : bs.length - (q + 1) = e := by omega
      rw [h3]
      rw [h4] at hih
      have h5 : b * 2 ^ bs.length + bitsToNat bs =
          2 ^ e * (b * 2 ^ (q + 1)) + bitsToNat bs := by
        rw [he, pow_add]; ring
      rw [h5, Nat.mul_add_div (Nat.pos_pow_of_pos _ (by norm_num))]
      have h6 : b * 2 ^ (q + 1) = 2 * (b * 2 ^ q) := by ring
      rw [h6, Nat.mul_add_mod, hih]
      simp [List.getD_cons_succ]

theorem div_pow_mod_two_of_mod_pow (v w e : Nat) (h : e < w) :
    v % 2 ^ w / 2 ^ e % 2 = v / 2 ^ e % 2 := by
  obtain ⟨k, rfl⟩ : ∃ k, w = e + k + 1 := ⟨w - e - 1, by omega⟩
  conv_rhs => rw [← Nat.div_add_mod v (2 ^ (e + k + 1))]
  have h1 : 2 ^ (e + k + 1) * (v / 2 ^ (e + k + 1)) + v % 2 ^ (e + k + 1) =
      2 ^ e * (2 ^ (k + 1) * (v / 2 ^ (e + k + 1))) + v % 2 ^ (e + k + 1) := by
    rw [pow_add]; ring
  rw [h1, Nat.mul_add_div (Nat.pos_pow_of_pos _ (by norm_num))]
  have h2 : 2 ^ (k + 1) * (v / 2 ^ (e + k + 1)) =
      2 * (2 ^ k * (v / 2 ^ (e + k + 1))) := by ring
  rw [h2, Nat.mul_add_mod]

theorem bitsToNat_range'_getBit (w : Nat) : ∀ v, v < 2 ^ w →
    bitsToNat ((List.range' 1 w).map (fun p => getBit w v p)) = v := by
  induction w with
  | zero => intro v hv; interval_cases v; simp [bitsToNat]
  | succ w ih =>
    intro v hv
    rw [List.range'_succ]
    simp only [List.map_cons]
    rw [bitsToNat_cons]
    have htail : (List.range' 2 w).map (fun p => getBit (w + 1) v p) =
        (List.range' 1 w).map (fun p => getBit w (v % 2 ^ w) p) := by
      rw [List.range'_eq_map_range, List.range'_eq_map_range,
        List.map_map, List.map_map]
      apply List.map_congr_left
      intro q hq
      have hqw : q < w := List.mem_range.mp hq
      show getBit (w + 1) v (2 + q) = getBit w (v % 2 ^ w) (1 + q)
      unfold getBit
      have h1 : w + 1 - (2 + q) = w - q - 1 := by omega
      have h2 : w - (1 + q) = w - q - 1 := by omega
      rw [h1, h2, div_pow_mod_two_of_mod_pow v w (w - q - 1) (by omega)]
    rw [htail, ih (v % 2 ^ w) (Nat.mod_lt _ (Nat.pos_pow_of_pos _ (by norm_num)))]
    have hlen : ((List.range' 1 w).map (fun p => getBit w (v % 2 ^ w) p)).length = w := by
      simp
    rw [hlen]
    unfold getBit
    simp only [Nat.add_sub_cancel]
    have hdiv : v / 2 ^ w < 2 := by
      apply Nat.div_lt_of_lt_mul
      calc v < 2 ^ (w + 1) := hv
        _ = 2 ^ w * 2 := by ring
    rw [Nat.mod_eq_of_lt hdiv, mul_comm, Nat.div_add_mod]

theorem permute_lt (v : Nat) (t : List Nat) (w : Nat) :
    permute v t w < 2 ^ t.length := by
  have h := bitsToNat_lt (t.map fun pos => getBit w v pos) ?_
  · simpa [permute] using h
  · intro b hb
    obtain ⟨a, _, rfl⟩ := List.mem_map.mp hb
    exact getBit_lt w v a

theorem getBit_permute (t : List Nat) (v w p : Nat) (hp1 : 1 ≤ p)
    (hp2 : p ≤ t.length) :
    getBit t.length (permute v t w) p = getBit w v (t.getD (p - 1) 0) := by
  unfold permute
  have hlen : (t.map fun pos => getBit w v pos).length = t.length := by simp
  have hb : ∀ b ∈ t.map fun pos => getBit w v pos, b < 2 := by
    intro b hb
    obtain ⟨a, _, rfl⟩ := List.mem_map.mp hb
    exact getBit_lt w v a
  rw [← hlen, getBit_bitsToNat _ hb p hp1 (by omega)]
  have hplt : p - 1 < t.length := by omega
  rw [List.getD_eq_getElem?_getD, List.getD_eq_getElem?_getD,
    List.getElem?_eq_getElem (by simpa using hplt), List.getElem?_eq_getElem hplt]
  simp

theorem permute_permute (v w : Nat) (t1 t2 : List Nat)
    (h : ∀ p ∈ t2, 1 ≤ p ∧ p ≤ t1.length) :
    permute (permute v t1 w) t2 t1.length =
      permute v (t2.map fun p => t1.getD (p - 1) 0) w := by
  show bitsToNat _ = bitsToNat _
  rw [List.map_map]
  congr 1
  apply List.map_congr_left
  intro p hp
  obtain ⟨h1, h2⟩ := h p hp
  simpa using getBit_permute t1 v w p h1 h2

theorem permute_range' (w v : Nat) (hv : v < 2 ^ w) :
    permute v (List.range' 1 w) w = v :=
  bitsToNat_range'_getBit w v hv

/-! Concrete facts about the permutation tables. -/

set_option maxRecDepth 10000 in
theorem IP_INV_comp_IP : IP_INV.map (fun p => IP.getD (p - 1) 0) = List.range' 1 64 := by
  decide

set_option maxRecDepth 10000 in
theorem IP_comp_IP_INV : IP.map (fun p => IP_INV.getD (p - 1) 0) = List.range' 1 64 := by
  decide

set_option maxRecDepth 10000 in
theorem IP_mem_bounds : ∀ p ∈ IP, 1 ≤ p ∧ p ≤ IP_INV.length := by decide

set_option maxRecDepth 10000 in
theorem IP_INV_mem_bounds : ∀ p ∈ IP_INV, 1 ≤ p ∧ p ≤ IP.length := by decide

theorem permute_IP_INV_of_IP (v : Nat) (hv : v < 2 ^ 64) :
    permute (permute v IP 64) IP_INV 64 = v := by
  have h := permute_permute v 64 IP IP_INV IP_INV_mem_bounds
  rw [show IP.length = 64 from rfl] at h
  rw [h, IP_INV_comp_IP, permute_range' 64 v hv]

theorem permute_IP_of_IP_INV (v : Nat) (hv : v < 2 ^ 64) :
    permute (permute v IP_INV 64) IP 64 = v := by
  have h := permute_permute v 64 IP_INV IP IP_mem_bounds
  rw [show IP_INV.length = 64 from rfl] at h
  rw [h, IP_comp_IP_INV, permute_range' 64 v hv]

/-! Splitting and recombining 64-bit blocks into 32-bit halves. -/

theorem shiftLeft32_or_eq_add (r l : Nat) (hl : l < 2 ^ 32) :
    (r <<< 32) ||| l = 2 ^ 32 * r + l := by
  rw [Nat.shiftLeft_eq, mul_comm]
  exact (Nat.mul_add_lt_is_or hl r).symm

theorem and_mask32 (x : Nat) : x &&& 0xFFFFFFFF = x % 2 ^ 32 := by
  have h : (0xFFFFFFFF : Nat) = 2 ^ 32 - 1 := by norm_num
  rw [h, Nat.and_pow_two_sub_one_eq_mod]

theorem and_mask32_lt (x : Nat) : x &&& 0xFFFFFFFF < 2 ^ 32 := by
  rw [and_mask32]
  exact Nat.mod_lt _ (by norm_num)

theorem combine_split_left (l r : Nat) (hl : l < 2 ^ 32) (hr : r < 2 ^ 32) :
    (((r <<< 32) ||| l) >>> 32) &&& 0xFFFFFFFF = r := by
  rw [shiftLeft32_or_eq_add r l hl, Nat.shiftRight_eq_div_pow,
    Nat.mul_add_div (by norm_num), Nat.div_eq_of_lt hl, Nat.add_zero,
    and_mask32, Nat.mod_eq_of_lt hr]

theorem combine_split_right (l r : Nat) (hl : l < 2 ^ 32) :
    ((r <<< 32) ||| l) &&& 0xFFFFFFFF = l := by
  rw [shiftLeft32_or_eq_add r l hl, and_mask32, Nat.mul_add_mod,
    Nat.mod_eq_of_lt hl]

theorem combine_lt (l r : Nat) (hl : l < 2 ^ 32) (hr : r < 2 ^ 32) :
    (r <<< 32) ||| l < 2 ^ 64 := by
  rw [shiftLeft32_or_eq_add r l hl]
  have h1 : (2 : Nat) ^ 32 * r ≤ 2 ^ 32 * (2 ^ 32 - 1) :=
    Nat.mul_le_mul_left _ (by omega)
  have h2 : (2 : Nat) ^ 32 * (2 ^ 32 - 1) + 2 ^ 32 = 2 ^ 64 := by norm_num
  omega

theorem split_combine (x : Nat) (hx : x < 2 ^ 64) :
    (((x >>> 32) &&& 0xFFFFFFFF) <<< 32) ||| (x &&& 0xFFFFFFFF) = x := by
  rw [and_mask32, and_mask32, Nat.shiftRight_eq_div_pow]
  have hd : x / 2 ^ 32 < 2 ^ 32 := by
    apply Nat.div_lt_of_lt_mul
    calc x < 2 ^ 64 := hx
      _ = 2 ^ 32 * 2 ^ 32 := by norm_num
  rw [Nat.mod_eq_of_lt hd,
    shiftLeft32_or_eq_add _ _ (Nat.mod_lt _ (by norm_num)), Nat.div_add_mod]

/-! The Feistel network run with reversed subkeys inverts the forward run. -/

theorem feistelRound_swap (lr : Nat × Nat) (k : Nat) :
    feistelRound (Prod.swap (feistelRound lr k)) k = Prod.swap lr := by
  obtain ⟨l, r⟩ := lr
  simp only [feistelRound, Prod.swap]
  rw [Nat.xor_assoc, Nat.xor_self, Nat.xor_zero]

theorem feistelRounds_reverse (ks : List Nat) : ∀ lr : Nat × Nat,
    feistelRounds ks.reverse (Prod.swap (feistelRounds ks lr)) = Prod.swap lr := by
  induction ks with
  | nil => intro lr; rfl
  | cons k ks ih =>
    intro lr
    rw [show feistelRounds (k :: ks) lr = feistelRounds ks (feistelRound lr k) from rfl,
      List.reverse_cons]
    have happ : feistelRounds (ks.reverse ++ [k])
        (Prod.swap (feistelRounds ks (feistelRound lr k))) =
        feistelRound (feistelRounds ks.reverse
          (Prod.swap (feistelRounds ks (feistelRound lr k)))) k := by
      unfold feistelRounds
      rw [List.foldl_append]
      rfl
    rw [happ, ih (feistelRound lr k), feistelRound_swap]

theorem f_function_lt (r k : Nat) : f_function r k < 2 ^ 32 :=
  permute_lt _ P 32

theorem feistelRounds_lt (ks : List Nat) : ∀ lr : Nat × Nat,
    lr.1 < 2 ^ 32 → lr.2 < 2 ^ 32 →
    (feistelRounds ks lr).1 < 2 ^ 32 ∧ (feistelRounds ks lr).2 < 2 ^ 32 := by
  induction ks with
  | nil => intro lr h1 h2; exact ⟨h1, h2⟩
  | cons k ks ih =>
    intro lr h1 h2
    rw [show feistelRounds (k :: ks) lr = feistelRounds ks (feistelRound lr k) from rfl]
    exact ih _ h2 (Nat.xor_lt_two_pow h1 (f_function_lt lr.2 k))

theorem encrypt_block_eq (block key : Nat) :
    encrypt_block block key = blockTransform (generate_subkeys key) block := rfl

theorem decrypt_block_eq (block key : Nat) :
    decrypt_block block key = blockTransform (generate_subkeys key).reverse block := rfl

theorem blockTransform_reverse (ks : List Nat) (x : Nat) (hx : x < 2 ^ 64) :
    blockTransform ks.reverse (blockTransform ks x) = x := by
  simp only [blockTransform]
  set e := permute x IP 64 with hedef
  have he : e < 2 ^ 64 := by
    have h := permute_lt x IP 64
    rwa [show IP.length = 64 from rfl] at h
  set l0 := (e >>> 32) &&& 0xFFFFFFFF with hl0
  set r0 := e &&& 0xFFFFFFFF with hr0
  have hl0lt : l0 < 2 ^ 32 := and_mask32_lt _
  have hr0lt : r0 < 2 ^ 32 := and_mask32_lt _
  set lr := feistelRounds ks (l0, r0) with hlr
  obtain ⟨h1, h2⟩ := feistelRounds_lt ks (l0, r0) hl0lt hr0lt
  rw [← hlr] at h1 h2
  rw [permute_IP_of_IP_INV _ (combine_lt lr.1 lr.2 h1 h2),
    combine_split_left lr.1 lr.2 h1 h2, combine_split_right lr.1 lr.2 h1,
    show ((lr.2, lr.1) : Nat × Nat) = Prod.swap lr from rfl, hlr,
    feistelRounds_reverse ks (l0, r0)]
  show permute ((l0 <<< 32) ||| r0) IP_INV 64 = x
  rw [hl0, hr0, split_combine e he, hedef, permute_IP_INV_of_IP x hx]

/-! Key-schedule shape lemmas. -/

theorem subkeysAux_length (l : List Nat) : ∀ c d, (subkeysAux l c d).length = l.length := by
  induction l with
  | nil => intro c d; rfl
  | cons s rest ih => intro c d; simp [subkeysAux, ih]

theorem subkeysAux_mem_lt (l : List Nat) : ∀ c d, ∀ sk ∈ subkeysAux l c d, sk < 2 ^ 48 := by
  induction l with
  | nil => intro c d sk h; simp [subkeysAux] at h
  | cons s rest ih =>
    intro c d sk h
    simp only [subkeysAux, List.mem_cons] at h
    rcases h with rfl | h
    · exact permute_lt _ PC2 56
    · exact ih _ _ sk h

/-! Byte-conversion lemmas. -/

theorem block_roundtrip_core (key x : Nat) (hx : x < 2 ^ 64) :
    decrypt_block (encrypt_block x key) key = x := by
  rw [encrypt_block_eq, decrypt_block_eq]
  exact blockTransform_reverse (generate_subkeys key) x hx

theorem encrypt_block_lt (block key : Nat) : encrypt_block block key < 2 ^ 64 :=
  permute_lt _ IP_INV 64

theorem foldl_mul256_add (bs : List Nat) (a : Nat) :
    bs.foldl (fun x y => 256 * x + y) a =
      a * 256 ^ bs.length + bs.foldl (fun x y => 256 * x + y) 0 := by
  induction bs generalizing a with
  | nil => simp
  | cons b bs ih =>
    simp only [List.foldl_cons, List.length_cons]
    rw [ih (256 * a + b), ih (256 * 0 + b)]
    ring

theorem fromBytes_cons (b : Nat) (bs : List Nat) :
    fromBytes (b :: bs) = b * 256 ^ bs.length + fromBytes bs := by
  show (b :: bs).foldl (fun x y => 256 * x + y) 0 = _
  simp only [List.foldl_cons]
  rw [foldl_mul256_add]
  unfold fromBytes
  ring

theorem fromBytes_concat (l : List Nat) (b : Nat) :
    fromBytes (l ++ [b]) = 256 * fromBytes l + b := by
  unfold fromBytes
  rw [List.foldl_append]
  show 256 * l.foldl (fun x y => 256 * x + y) 0 + b = _
  ring

theorem fromBytes_lt (bs : List Nat) (h : ∀ b ∈ bs, b < 256) :
    fromBytes bs < 256 ^ bs.length := by
  induction bs with
  | nil => simp [fromBytes]
  | cons b bs ih =>
    rw [fromBytes_cons]
    have hb : b < 256 := h b (by simp)
    have hbs := ih (fun x hx => h x (by simp [hx]))
    have hb1 : b * 256 ^ bs.length ≤ 255 * 256 ^ bs.length :=
      Nat.mul_le_mul_right _ (by omega)
    calc b * 256 ^ bs.length + fromBytes bs
        < b * 256 ^ bs.length + 256 ^ bs.length := by omega
      _ ≤ 255 * 256 ^ bs.length + 256 ^ bs.length := by omega
      _ = 256 ^ (b :: bs).length := by simp [List.length_cons, pow_succ]; ring

theorem toBytes_length (k : Nat) : ∀ n, (toBytes k n).length = k := by
  induction k with
  | zero => intro n; rfl
  | succ k ih => intro n; simp [toBytes, ih]

theorem toBytes_mem_lt (k : Nat) : ∀ n, ∀ b ∈ toBytes k n, b < 256 := by
  induction k with
  | zero => intro n b h; simp [toBytes] at h
  | succ k ih =>
    intro n b h
    simp only [toBytes, List.mem_append, List.mem_singleton] at h
    rcases h with h | rfl
    · exact ih _ b h
    · exact Nat.mod_lt _ (by norm_num)

theorem fromBytes_toBytes (k : Nat) : ∀ n, n < 256 ^ k → fromBytes (toBytes k n) = n := by
  induction k with
  | zero => intro n h; interval_cases n; rfl
  | succ k ih =>
    intro n h
    show fromBytes (toBytes k (n / 256) ++ [n % 256]) = n
    rw [fromBytes_concat, ih (n / 256) ?_]
    · exact Nat.div_add_mod n 256
    · apply Nat.div_lt_of_lt_mul
      calc n < 256 ^ (k + 1) := h
        _ = 256 * 256 ^ k := by ring

theorem toBytes_fromBytes (k : Nat) : ∀ bs : List Nat, bs.length = k →
    (∀ b ∈ bs, b < 256) → toBytes k (fromBytes bs) = bs := by
  induction k with
  | zero =>
    intro bs hlen _
    rw [List.length_eq_zero] at hlen
    subst hlen
    rfl
  | succ k ih =>
    intro bs hlen hb
    rcases List.eq_nil_or_concat bs with rfl | ⟨l, b, rfl⟩
    · simp at hlen
    · rw [List.concat_eq_append] at hlen hb ⊢
      have hblt : b < 256 := hb b (by simp)
      have hl : l.length = k := by
        simp only [List.length_append, List.length_singleton] at hlen
        omega
      rw [fromBytes_concat]
      show toBytes k ((256 * fromBytes l + b) / 256) ++
        [(256 * fromBytes l + b) % 256] = l ++ [b]
      rw [Nat.mul_add_div (by norm_num), Nat.div_eq_of_lt hblt, Nat.add_zero,
        Nat.mul_add_mod, Nat.mod_eq_of_lt hblt,
        ih l hl (fun x hx => hb x (by simp [hx]))]

/-! Chunking lemmas. -/

theorem chunks8_cons_eq (x : Nat) (xs : List Nat) :
    chunks8 (x :: xs) = (x :: xs).take 8 :: chunks8 ((x :: xs).drop 8) := by
  match xs with
  | [] => rfl
  | [_] => rfl
  | [_, _] => rfl
  | [_, _, _] => rfl
  | [_, _, _, _] => rfl
  | [_, _, _, _, _] => rfl
  | [_, _, _, _, _, _] => rfl
  | _ :: _ :: _ :: _ :: _ :: _ :: _ :: _ => rfl

theorem chunks8_append8 (cs rest : List Nat) (h : cs.length = 8) :
    chunks8 (cs ++ rest) = cs :: chunks8 rest := by
  rcases cs with _ | ⟨c, cs'⟩
  · simp at h
  · rw [List.cons_append, chunks8_cons_eq]
    rw [← List.cons_append, List.take_left' h, List.drop_left' h]

theorem flatten_map_chunks8_length (f : List Nat → List Nat)
    (hf : ∀ c, (f c).length = 8) : ∀ n (l : List Nat), l.length = n → n % 8 = 0 →
    (((chunks8 l).map f).flatten).length = l.length := by
  intro n
  induction n using Nat.strong_induction_on with
  | _ n ih =>
    intro l hlen h8
    rcases l with _ | ⟨x, xs⟩
    · simp [chunks8]
    · simp only [List.length_cons] at hlen
      have hn8 : 8 ≤ n := by omega
      rw [chunks8_cons_eq]
      simp only [List.map_cons, List.flatten_cons, List.length_append, hf]
      have hdlen : ((x :: xs).drop 8).length = n - 8 := by
        simp [List.length_drop, List.length_cons]
        omega
      rw [ih (n - 8) (by omega) ((x :: xs).drop 8) hdlen (by omega), hdlen]
      simp [List.length_cons]
      omega

theorem dec_enc_chunks8 (key : Nat) : ∀ n (l : List Nat), l.length = n →
    n % 8 = 0 → (∀ b ∈ l, b < 256) →
    ((chunks8 (((chunks8 l).map
        (fun c => toBytes 8 (encrypt_block (fromBytes c) key))).flatten)).map
      (fun c => toBytes 8 (decrypt_block (fromBytes c) key))).flatten = l := by
  intro n
  induction n using Nat.strong_induction_on with
  | _ n ih =>
    intro l hlen h8 hb
    rcases l with _ | ⟨x, xs⟩
    · simp [chunks8]
    · simp only [List.length_cons] at hlen
      have hn8 : 8 ≤ n := by omega
      have htlen : ((x :: xs).take 8).length = 8 := by
        simp [List.length_take, List.length_cons]
        omega
      have htb : ∀ b ∈ (x :: xs).take 8, b < 256 :=
        fun b hbm => hb b (List.mem_of_mem_take hbm)
      have hfb : fromBytes ((x :: xs).take 8) < 2 ^ 64 := by
        have h := fromBytes_lt ((x :: xs).take 8) htb
        rw [htlen] at h
        calc fromBytes ((x :: xs).take 8) < 256 ^ 8 := h
          _ = 2 ^ 64 := by norm_num
      have henc : encrypt_block (fromBytes ((x :: xs).take 8)) key < 256 ^ 8 := by
        calc encrypt_block (fromBytes ((x :: xs).take 8)) key
            < 2 ^ 64 := encrypt_block_lt _ key
          _ = 256 ^ 8 := by norm_num
      conv_lhs => rw [show (x :: xs) = (x :: xs).take 8 ++ (x :: xs).drop 8 from
        (List.take_append_drop 8 (x :: xs)).symm]
      rw [chunks8_append8 _ _ htlen]
      simp only [List.map_cons, List.flatten_cons]
      rw [chunks8_append8 _ _ (toBytes_length 8 _)]
      simp only [List.map_cons, List.flatten_cons]
      rw [fromBytes_toBytes 8 _ henc, block_roundtrip_core key _ hfb,
        toBytes_fromBytes 8 _ htlen htb]
      have hdlen : ((x :: xs).drop 8).length = n - 8 := by
        simp [List.length_drop, List.length_cons]
        omega
      rw [ih (n - 8) (by omega) ((x :: xs).drop 8) hdlen (by omega)
        (fun b hbm => hb b (List.mem_of_mem_drop hbm))]
      exact List.take_append_drop 8 (x :: xs)

/-! Padding lemmas. -/

theorem pad_data_eq (data : List Nat) :
    _pad_data data = data ++
      List.replicate (8 - data.length % 8) (8 - data.length % 8) := rfl

theorem pad_data_length (data : List Nat) :
    (_pad_data data).length = data.length + (8 - data.length % 8) := by
  rw [pad_data_eq]
  simp

theorem pad_data_length_mod (data : List Nat) : (_pad_data data).length % 8 = 0 := by
  rw [pad_data_length]
  omega

theorem pad_data_mem_lt (data : List Nat) (hb : ∀ b ∈ data, b < 256) :
    ∀ b ∈ _pad_data data, b < 256 := by
  intro b hbm
  rw [pad_data_eq, List.mem_append] at hbm
  rcases hbm with h | h
  · exact hb b h
  · rw [List.mem_replicate] at h
    omega

theorem unpad_pad (data : List Nat) : _unpad_data (_pad_data data) = .ok data := by
  generalize hp : 8 - data.length % 8 = p
  have h1p : 1 ≤ p := by omega
  have h8p : p ≤ 8 := by omega
  have hpad : _pad_data data = data ++ List.replicate p p := by
    rw [pad_data_eq, hp]
  rw [hpad]
  have hlast : (data ++ List.replicate p p).getLast? = some p := by
    rw [List.getLast?_append, List.getLast?_replicate]
    simp [show p ≠ 0 by omega]
  have hlen : (data ++ List.replicate p p).length = data.length + p := by simp
  have hall : ((List.range' 1 p).all (fun i =>
      (data ++ List.replicate p p).getD
        ((data ++ List.replicate p p).length - i) 0 == p)) = true := by
    rw [List.all_eq_true]
    intro i hi
    rw [List.mem_range'] at hi
    obtain ⟨k, hk, rfl⟩ := hi
    rw [hlen, List.getD_eq_getElem?_getD,
      List.getElem?_append_right (by omega),
      show data.length + p - (1 + 1 * k) - data.length = p - (1 + k) by omega,
      List.getElem?_replicate_of_lt (by omega)]
    simp
  unfold _unpad_data
  rw [hlast]
  show (if 8 < p then Except.error DesError.paddingInvalid
    else if (List.range' 1 p).all (fun i =>
        (data ++ List.replicate p p).getD
          ((data ++ List.replicate p p).length - i) 0 == p) then
      Except.ok (if p = 0 then [] else
        (data ++ List.replicate p p).take
          ((data ++ List.replicate p p).length - p))
    else Except.error DesError.paddingInvalid) = Except.ok data
  rw [if_neg (by omega), if_pos hall, if_neg (by omega), hlen,
    show data.length + p - p = data.length by omega,
    List.take_left' rfl]

/-! Claim theorems. -/

/-- C1: for every 64-bit integer key and every 64-bit integer block,
`decrypt_block (encrypt_block block key) key = block`. -/
theorem des_block_roundtrip (key block : Nat) (hb : block < 2 ^ 64) :
    decrypt_block (encrypt_block block key) key = block :=
  block_roundtrip_core key block hb

/-- Witness for the block round-trip at the canonical DES test vector. -/
theorem des_block_roundtrip_witness :
    (0x0123456789ABCDEF : Nat) < 2 ^ 64 ∧
      decrypt_block (encrypt_block 0x0123456789ABCDEF 0x133457799BBCDFF1)
        0x133457799BBCDFF1 = 0x0123456789ABCDEF :=
  ⟨by norm_num,
    des_block_roundtrip 0x133457799BBCDFF1 0x0123456789ABCDEF (by norm_num)⟩

/-- C2: for every key and every byte string (the UTF-8 encoding of the
plaintext, including the empty one), decrypting the encryption returns
exactly the original bytes, so `decrypt (encrypt t key) key = t` for
every encodable text `t`. -/
theorem des_stream_roundtrip (data : List Nat) (key : Nat)
    (hb : ∀ b ∈ data, b < 256) :
    decrypt (encrypt data key) key = .ok data := by
  have hpadmod := pad_data_length_mod data
  have hctlen : (encrypt data key).length = (_pad_data data).length := by
    show (((chunks8 (_pad_data data)).map
      (fun c => toBytes 8 (encrypt_block (fromBytes c) key))).flatten).length = _
    exact flatten_map_chunks8_length _ (fun c => toBytes_length 8 _)
      (_pad_data data).length (_pad_data data) rfl hpadmod
  unfold decrypt
  rw [if_neg (by rw [hctlen]; omega)]
  show _unpad_data (((chunks8 (((chunks8 (_pad_data data)).map
    (fun c => toBytes 8 (encrypt_block (fromBytes c) key))).flatten)).map
      (fun c => toBytes 8 (decrypt_block (fromBytes c) key))).flatten) = _
  rw [dec_enc_chunks8 key (_pad_data data).length (_pad_data data) rfl hpadmod
    (pad_data_mem_lt data hb)]
  exact unpad_pad data

/-- Witness for the stream round-trip on the two-byte plaintext "Hi". -/
theorem des_stream_roundtrip_witness :
    (∀ b ∈ ([72, 105] : List Nat), b < 256) ∧
      decrypt (encrypt [72, 105] 0x133457799BBCDFF1) 0x133457799BBCDFF1 =
        .ok [72, 105] :=
  ⟨by decide, des_stream_roundtrip [72, 105] 0x133457799BBCDFF1 (by decide)⟩

/-- C4: a ciphertext whose byte length is not a multiple of 8 makes
`decrypt` fail with the length-validation error, for every key and
independently of the ciphertext bytes; in the source the guard precedes
the block loop, so no block transform contributes to the result. -/
theorem des_decrypt_invalid_length (ct : List Nat) (key : Nat)
    (h : ct.length % 8 ≠ 0) : decrypt ct key = .error .lengthInvalid := by
  unfold decrypt
  rw [if_pos h]

/-- Witness: a 7-byte ciphertext is rejected. -/
theorem des_decrypt_invalid_length_witness :
    ([0, 0, 0, 0, 0, 0, 0] : List Nat).length % 8 ≠ 0 ∧
      decrypt [0, 0, 0, 0, 0, 0, 0] 0 = .error .lengthInvalid :=
  ⟨by decide, des_decrypt_invalid_length [0, 0, 0, 0, 0, 0, 0] 0 (by decide)⟩

/-- C6: `encrypt` pads with PKCS#7-style padding: `_pad_data` appends
`8 - len % 8` bytes (always between 1 and 8) whose value is that count;
for block-aligned input a full extra block of eight bytes of value 8 is
appended, and the `encrypt` output is exactly 8 bytes longer than the
input. -/
theorem des_pad_always_added (data : List Nat) (key : Nat) :
    _pad_data data = data ++
        List.replicate (8 - data.length % 8) (8 - data.length % 8) ∧
      1 ≤ 8 - data.length % 8 ∧ 8 - data.length % 8 ≤ 8 ∧
      (data.length % 8 = 0 →
        _pad_data data = data ++ List.replicate 8 8 ∧
        (encrypt data key).length = data.length + 8) := by
  refine ⟨pad_data_eq data, by omega, by omega, fun h0 => ⟨?_, ?_⟩⟩
  · rw [pad_data_eq, h0]
  · have hctlen : (encrypt data key).length = (_pad_data data).length := by
      show (((chunks8 (_pad_data data)).map
        (fun c => toBytes 8 (encrypt_block (fromBytes c) key))).flatten).length = _
      exact flatten_map_chunks8_length _ (fun c => toBytes_length 8 _)
        (_pad_data data).length (_pad_data data) rfl (pad_data_length_mod data)
    rw [hctlen, pad_data_length, h0]

/-- Witness for the padding claim on an 8-byte (block-aligned) input. -/
theorem des_pad_always_added_witness :
    ([1, 2, 3, 4, 5, 6, 7, 8] : List Nat).length % 8 = 0 ∧
      _pad_data [1, 2, 3, 4, 5, 6, 7, 8] =
        [1, 2, 3, 4, 5, 6, 7, 8] ++ List.replicate 8 8 ∧
      (encrypt [1, 2, 3, 4, 5, 6, 7, 8] 0).length =
        ([1, 2, 3, 4, 5, 6, 7, 8] : List Nat).length + 8 :=
  ⟨by decide, (des_pad_always_added [1, 2, 3, 4, 5, 6, 7, 8] 0).2.2.2 (by decide)⟩

/-- C7: `generate_subkeys` returns an ordered sequence of exactly 16
values, each representable in 48 bits, for every key (it is total, so it
never fails). -/
theorem des_subkeys_count_width (key : Nat) :
    (generate_subkeys key).length = 16 ∧
      ∀ sk ∈ generate_subkeys key, sk < 2 ^ 48 := by
  constructor
  · show (subkeysAux SHIFTS _ _).length = 16
    rw [subkeysAux_length]
    rfl
  · intro sk h
    exact subkeysAux_mem_lt SHIFTS _ _ sk h

/-- Witness for the subkey count and width claim at the all-zero key. -/
theorem des_subkeys_count_width_witness :
    (generate_subkeys 0).length = 16 ∧
      ∀ sk ∈ generate_subkeys 0, sk < 2 ^ 48 :=
  des_subkeys_count_width 0

set_option maxRecDepth 100000 in
/-- C3: `encrypt_block` maps the published reference plaintext
`0x0123456789ABCDEF` to the published reference ciphertext under the
standard test key `0x133457799BBCDFF1`, pinning the permutation tables
and round structure against the canonical DES specification. -/
theorem des_known_vector :
    encrypt_block 0x0123456789ABCDEF 0x133457799BBCDFF1 = 0x85E813540F0AB405 := by
  decide

/-- C5: for a ciphertext of valid length, `decrypt` fails with the
padding-validation error exactly when the pad-length byte `N` (the last
byte of the full block-wise decryption) exceeds 8 or one of the last `N`
decrypted bytes differs from `N`; both the pad length and the checked
bytes are read off the completed concatenation of all decrypted blocks,
so the failure arises only after every block has been decrypted. -/
theorem des_decrypt_padding_error_iff (ct : List Nat) (key : Nat) (N : Nat)
    (h8 : ct.length % 8 = 0)
    (hN : (((chunks8 ct).map
        (fun c => toBytes 8 (decrypt_block (fromBytes c) key))).flatten).getLast? =
      some N) :
    (decrypt ct key = .error .paddingInvalid) ↔
      (8 < N ∨ ∃ i, 1 ≤ i ∧ i ≤ N ∧
        (((chunks8 ct).map
            (fun c => toBytes 8 (decrypt_block (fromBytes c) key))).flatten).getD
          ((((chunks8 ct).map
            (fun c => toBytes 8 (decrypt_block (fromBytes c) key))).flatten).length
            - i) 0 ≠ N) := by
  generalize hdec : ((chunks8 ct).map
      (fun c => toBytes 8 (decrypt_block (fromBytes c) key))).flatten = dec at hN ⊢
  unfold decrypt
  rw [if_neg (by omega), hdec]
  unfold _unpad_data
  rw [hN]
  show (if 8 < N then Except.error DesError.paddingInvalid
    else if (List.range' 1 N).all (fun i => dec.getD (dec.length - i) 0 == N) then
      Except.ok (if N = 0 then [] else dec.take (dec.length - N))
    else Except.error DesError.paddingInvalid) = Except.error DesError.paddingInvalid
    ↔ (8 < N ∨ ∃ i, 1 ≤ i ∧ i ≤ N ∧ dec.getD (dec.length - i) 0 ≠ N)
  rcases Nat.lt_or_ge 8 N with hgt | hle
  · rw [if_pos hgt]
    simp [hgt]
  · rw [if_neg (by omega)]
    cases hall : (List.range' 1 N).all (fun i => dec.getD (dec.length - i) 0 == N) with
    | true =>
      rw [if_pos rfl]
      constructor
      · intro hcontra
        exact absurd hcontra (by simp)
      · intro hor
        rcases hor with hgt' | ⟨i, hi1, hi2, hne⟩
        · omega
        · rw [List.all_eq_true] at hall
          have hmem : i ∈ List.range' 1 N := by
            rw [List.mem_range']
            exact ⟨i - 1, by omega, by omega⟩
          have hv := hall i hmem
          rw [beq_iff_eq] at hv
          exact absurd hv hne
    | false =>
      rw [if_neg (by simp)]
      simp only [true_iff]
      right
      rw [List.all_eq_false] at hall
      obtain ⟨i, hmem, hne⟩ := hall
      rw [List.mem_range'] at hmem
      obtain ⟨k, hk, rfl⟩ := hmem
      refine ⟨1 + 1 * k, by omega, by omega, ?_⟩
      simpa using hne

set_option maxRecDepth 1000000 in
/-- Witness for the padding-error characterisation: a ciphertext block
decrypting to bytes with trailing byte 200 (which exceeds 8) makes
`decrypt` fail with the padding error. -/
theorem des_decrypt_padding_error_iff_witness :
    (toBytes 8 (encrypt_block (fromBytes [1, 2, 3, 4, 5, 6, 7, 200]) 5)).length % 8
        = 0 ∧
      decrypt (toBytes 8 (encrypt_block (fromBytes [1, 2, 3, 4, 5, 6, 7, 200]) 5)) 5 =
        .error .paddingInvalid :=
  ⟨by decide,
    (des_decrypt_padding_error_iff
        (toBytes 8 (encrypt_block (fromBytes [1, 2, 3, 4, 5, 6, 7, 200]) 5)) 5 200
        (by decide) (by decide)).mpr (Or.inl (by norm_num))⟩

/-- C8: `encrypt` is deterministic for a fixed key and chains nothing
between blocks: whenever two 8-byte chunks of the padded plaintext are
identical, the corresponding 8-byte output chunks of `encrypt` are
identical. -/
theorem des_ecb_identical_blocks (data : List Nat) (key i j : Nat)
    (hij : (chunks8 (_pad_data data))[i]? = (chunks8 (_pad_data data))[j]?) :
    ((chunks8 (_pad_data data)).map
        (fun c => toBytes 8 (encrypt_block (fromBytes c) key)))[i]? =
      ((chunks8 (_pad_data data)).map
        (fun c => toBytes 8 (encrypt_block (fromBytes c) key)))[j]? := by
  rw [List.getElem?_map, List.getElem?_map, hij]

/-- Witness for the ECB determinism claim: sixteen bytes of value 7 pad to
three blocks whose first two are identical, and the first two output
chunks coincide. -/
theorem des_ecb_identical_blocks_witness :
    (chunks8 (_pad_data (List.replicate 16 7)))[0]? =
        (chunks8 (_pad_data (List.replicate 16 7)))[1]? ∧
      ((chunks8 (_pad_data (List.replicate 16 7))).map
          (fun c => toBytes 8 (encrypt_block (fromBytes c) 9)))[0]? =
        ((chunks8 (_pad_data (List.replicate 16 7))).map
          (fun c => toBytes 8 (encrypt_block (fromBytes c) 9)))[1]? :=
  ⟨by decide, des_ecb_identical_blocks (List.replicate 16 7) 9 0 1 (by decide)⟩

/-- C9: when the block-wise decryption of a valid-length ciphertext ends
in the byte 0, `decrypt` raises no padding error: pad-length 0 passes both
unpadding checks (8 < 0 fails and the check loop is empty) and the Python
slice `data[:-0]` is empty, so `decrypt` returns the empty result and
silently discards the entire decrypted content. -/
theorem des_unpad_zero_returns_empty (ct : List Nat) (key : Nat)
    (h8 : ct.length % 8 = 0)
    (hN : (((chunks8 ct).map
        (fun c => toBytes 8 (decrypt_block (fromBytes c) key))).flatten).getLast? =
      some 0) :
    decrypt ct key = .ok [] := by
  generalize hdec : ((chunks8 ct).map
      (fun c => toBytes 8 (decrypt_block (fromBytes c) key))).flatten = dec at hN
  unfold decrypt
  rw [if_neg (by omega), hdec]
  unfold _unpad_data
  rw [hN]
  show (if 8 < 0 then Except.error DesError.paddingInvalid
    else if (List.range' 1 0).all (fun i => dec.getD (dec.length - i) 0 == 0) then
      Except.ok (if 0 = 0 then [] else dec.take (dec.length - 0))
    else Except.error DesError.paddingInvalid) = Except.ok []
  simp

set_option maxRecDepth 1000000 in
/-- Witness for the zero-pad-length behaviour: the ciphertext of the
all-zero block decrypts to eight zero bytes, and `decrypt` returns the
empty byte string, discarding them all. -/
theorem des_unpad_zero_returns_empty_witness :
    (toBytes 8 (encrypt_block 0 3)).length % 8 = 0 ∧
      decrypt (toBytes 8 (encrypt_block 0 3)) 3 = .ok [] :=
  ⟨by decide, des_unpad_zero_returns_empty (toBytes 8 (encrypt_block 0 3)) 3
    (by decide) (by decide)⟩

/-- C10: decrypting the empty byte sequence passes the length check
(`0 % 8 = 0`), decrypts no blocks, and then the unpadding step indexes the
last byte of an empty sequence, failing with an out-of-range indexing
error that is distinct from all three specified error kinds. -/
theorem des_decrypt_empty_index_error (key : Nat) :
    decrypt [] key = .error .indexOutOfRange ∧
      DesError.indexOutOfRange ≠ DesError.lengthInvalid ∧
      DesError.indexOutOfRange ≠ DesError.paddingInvalid ∧
      DesError.indexOutOfRange ≠ DesError.decodeInvalid :=
  ⟨rfl, by decide, by decide, by decide⟩

/-- Witness for the empty-ciphertext behaviour at key 42. -/
theorem des_decrypt_empty_index_error_witness :
    decrypt [] 42 = .error .indexOutOfRange ∧
      DesError.indexOutOfRange ≠ DesError.lengthInvalid ∧
      DesError.indexOutOfRange ≠ DesError.paddingInvalid ∧
      DesError.indexOutOfRange ≠ DesError.decodeInvalid :=
  des_decrypt_empty_index_error 42

end DES
